import Mathlib

/-!
Shallow embedding of the extended twisted Edwards point arithmetic
(jubjub/edwards.rs) and proofs of the specification claims.

The base field of the engine is modelled as an abstract field F with
decidable equality.  Curve parameters (the Edwards coefficient d, the
Montgomery coefficient A and the Montgomery-to-Edwards scale factor s)
are bundled in a JubjubParams value, mirroring the JubjubParams trait.
-/

variable {F : Type} [Field F] [DecidableEq F]

/-- Curve parameter bundle, mirroring the JubjubParams trait accessors
edwards_d, montgomery_a and scale. -/
structure JubjubParams (F : Type) where
  edwards_d : F
  montgomery_a : F
  scale : F

/-- Extended twisted Edwards point (X, Y, T, Z), mirroring struct Point. -/
structure Point (F : Type) where
  x : F
  y : F
  t : F
  z : F
deriving DecidableEq

namespace Point

/-- Field inversion as the external capability provides it: absent on the
additive identity, mirroring Fr inverse returning Option. -/
def inv (a : F) : Option F :=
  if a = 0 then none else some a⁻¹

/-- Mirrors Point zero: the quadruple (0, 1, 0, 1). -/
def zero : Point F :=
  ⟨0, 1, 0, 1⟩

/-- Mirrors PartialEq for Point: cross-multiplied comparison
x1*z2 = x2*z1 and y1*z2 = y2*z1. -/
def beq (p q : Point F) : Bool :=
  decide (p.x * q.z = q.x * p.z) && decide (p.y * q.z = q.y * p.z)

/-- Mirrors Point negate: negates the x and t coordinates. -/
def negate (p : Point F) : Point F :=
  ⟨-p.x, p.y, -p.t, p.z⟩

/-- Mirrors Point add: the unified extended-coordinate addition formula,
translated step by step from the mul_assign and add_assign sequence. -/
def add (p q : Point F) (params : JubjubParams F) : Point F :=
  let a := p.x * q.x
  let b := p.y * q.y
  let c := params.edwards_d * p.t * q.t
  let d := p.z * q.z
  let h := b + a
  let e := (p.x + p.y) * (q.x + q.y) - h
  let f := d - c
  let g := d + c
  ⟨e * f, g * h, e * h, f * g⟩

/-- Mirrors Point double: defined as add of the point with itself. -/
def double (p : Point F) (params : JubjubParams F) : Point F :=
  p.add p params

/-- The loop body plus fold of Point mul: most significant bit first,
double the accumulator, and add the base point when the bit is set. -/
def mulBits (p : Point F) (params : JubjubParams F) (bits : List Bool) : Point F :=
  bits.foldl (fun res b => let r := res.double params; if b then r.add p params else r) zero

/-- The fixed-width most-significant-bit-first bit representation produced
by BitIterator over a w-bit scalar representation holding the value n. -/
def natBits (w n : Nat) : List Bool :=
  (List.range w).map (fun i => n.testBit (w - 1 - i))

/-- Mirrors Point mul: iterate over the fixed-width bit representation of
the scalar, doubling and conditionally adding. -/
def mul (p : Point F) (params : JubjubParams F) (w n : Nat) : Point F :=
  p.mulBits params (natBits w n)

/-- Mirrors Point mul_by_cofactor: three doublings. -/
def mul_by_cofactor (p : Point F) (params : JubjubParams F) : Point F :=
  ((p.double params).double params).double params

/-- Mirrors Point as_prime_order: multiply by the scalar field
characteristic r (represented in w bits) and compare with zero. -/
def as_prime_order (p : Point F) (params : JubjubParams F) (w r : Nat) : Option (Point F) :=
  if (p.mul params w r).beq zero then some p else none

/-- Mirrors Point into_xy: invert Z and return (X/Z, Y/Z). -/
def into_xy (p : Point F) : Option (F × F) :=
  match inv p.z with
  | none => none
  | some zinv => some (p.x * zinv, p.y * zinv)

/-- Mirrors Point from_montgomery.  The Montgomery collaborator is
represented by the result of its into_xy accessor: none for the point at
infinity, some (x, y) for an affine point. -/
def from_montgomery (params : JubjubParams F) (m : Option (F × F)) : Point F :=
  match m with
  | none => zero
  | some (x, y) =>
    if y = 0 then
      ⟨0, -1, 0, 1⟩
    else
      let u := x * params.scale
      let v := x - 1
      let t := u * v
      let z := x + 1
      let u2 := u * z
      let z2 := z * y
      let v2 := v * y
      ⟨u2, v2, t, z2⟩

/-- Mirrors one iteration of the Point rand rejection loop: given the
sampled field element x and the fresh sign bit b, computes the candidate
y squared, inverts the denominator, takes a square root and adjusts the
sign by parity.  The field square root and parity test are the external
capabilities sqrtF and isOddF. -/
def randStep (sqrtF : F → Option F) (isOddF : F → Bool) (params : JubjubParams F)
    (x : F) (b : Bool) : Option (Point F) :=
  let x2 := x * x
  let num := 1 + x2
  let x2d := x2 * params.edwards_d
  let den := 1 - x2d
  match inv den with
  | none => none
  | some invden =>
    let num2 := num * invden
    match sqrtF num2 with
    | none => none
    | some y0 =>
      let y := if isOddF y0 != b then -y0 else y0
      some ⟨x, y, x * y, 1⟩

/-- Mirrors Point rand: the rejection-sampling loop, consuming a list of
draws, each one sampled field element paired with one fresh sign bit. -/
def rand (sqrtF : F → Option F) (isOddF : F → Bool) (params : JubjubParams F) :
    List (F × Bool) → Option (Point F)
  | [] => none
  | (x, b) :: rest =>
    match randStep sqrtF isOddF params x b with
    | some p => some p
    | none => rand sqrtF isOddF params rest

/-- Coordinate-wise scaling of a point, used to track projective
rescalings through the bilinear addition formula. -/
def smul (c : F) (p : Point F) : Point F :=
  ⟨c * p.x, c * p.y, c * p.t, c * p.z⟩

/-- Instrumented fold mirroring the mul loop while counting the number of
doublings performed, used to state the cost part of the specification. -/
def mulCount (p : Point F) (params : JubjubParams F) (bits : List Bool) : Point F × Nat :=
  bits.foldl (fun acc b =>
    let r := acc.1.double params
    (if b then r.add p params else r, acc.2 + 1)) (zero, 0)

/-- The affine twisted Edwards curve equation with parameter d. -/
def onCurve (d a b : F) : Prop :=
  b ^ 2 - a ^ 2 = 1 + d * a ^ 2 * b ^ 2

/-- The extended-coordinate representation invariant: p represents the
affine point (a, b) via a nonzero Z with X = aZ, Y = bZ, T = abZ. -/
def represents (p : Point F) (a b : F) : Prop :=
  p.z ≠ 0 ∧ p.x = a * p.z ∧ p.y = b * p.z ∧ p.t = a * b * p.z

/-- Well-formedness: the quadruple represents some affine curve point. -/
def WF (params : JubjubParams F) (p : Point F) : Prop :=
  ∃ a b, represents p a b ∧ onCurve params.edwards_d a b

/-- The points produced by the operations of this module: zero, negate,
add, double, mul, mul_by_cofactor, successful rand iterations with a
specification-conforming square root capability, and from_montgomery
applied to a genuine Montgomery-curve point. -/
inductive Produced (params : JubjubParams F) : Point F → Prop where
| zero_mem : Produced params Point.zero
| negate_mem (p : Point F) : Produced params p → Produced params p.negate
| add_mem (p q : Point F) :
    Produced params p → Produced params q → Produced params (p.add q params)
| double_mem (p : Point F) : Produced params p → Produced params (p.double params)
| mul_mem (p : Point F) (w n : Nat) :
    Produced params p → Produced params (p.mul params w n)
| mul_by_cofactor_mem (p : Point F) :
    Produced params p → Produced params (p.mul_by_cofactor params)
| rand_mem (sqrtF : F → Option F) (isOddF : F → Bool) (x : F) (b : Bool) (p : Point F) :
    (∀ a r, sqrtF a = some r → r * r = a) →
    randStep sqrtF isOddF params x b = some p → Produced params p
| from_montgomery_mem (m : Option (F × F)) :
    (∀ u v, m = some (u, v) → v ^ 2 = u ^ 3 + params.montgomery_a * u ^ 2 + u) →
    Produced params (from_montgomery params m)

end Point

instance : Fact (Nat.Prime 13) := ⟨by norm_num⟩

/-- A concrete parameter set over the field with 13 elements: d = 2 is a
nonsquare, -1 = 5 * 5 is a square, and s = 4, A = 8 satisfy the
Montgomery-to-Edwards relations used by the invariant theorem. -/
def paramsZ : JubjubParams (ZMod 13) := ⟨2, 8, 4⟩

/-- A specification-conforming square root capability on the field with
13 elements, scanning the field for a root. -/
def sqrtZ (a : ZMod 13) : Option (ZMod 13) :=
  ((List.range 13).find? (fun r => decide ((r : ZMod 13) * (r : ZMod 13) = a))).map
    (fun r => (r : ZMod 13))

/-- The parity of the canonical integer representation of a field element. -/
def isOddZ (a : ZMod 13) : Bool := decide (a.val % 2 = 1)

/-- A sample point used to instantiate theorems on concrete inputs. -/
def pW : Point (ZMod 13) := ⟨1, 2, 3, 4⟩

/-- A second sample point satisfying the extended-coordinate invariant. -/
def pW2 : Point (ZMod 13) := ⟨2, 3, 6, 1⟩


/-- C1: add returns exactly the quadruple given by A = X1 X2, B = Y1 Y2,
C = d T1 T2, D = Z1 Z2, H = B + A, E = (X1+Y1)(X2+Y2) - H, F = D - C,
G = D + C, X3 = E F, Y3 = G H, T3 = E H, Z3 = F G, with no
exceptional-case branching, and double is add of the point with itself. -/
theorem c1_add_formula (params : JubjubParams F) (p q : Point F) :
    p.add q params =
      ⟨(((p.x + p.y) * (q.x + q.y) - (p.y * q.y + p.x * q.x)) *
          (p.z * q.z - params.edwards_d * p.t * q.t)),
        ((p.z * q.z + params.edwards_d * p.t * q.t) * (p.y * q.y + p.x * q.x)),
        (((p.x + p.y) * (q.x + q.y) - (p.y * q.y + p.x * q.x)) *
          (p.y * q.y + p.x * q.x)),
        ((p.z * q.z - params.edwards_d * p.t * q.t) *
          (p.z * q.z + params.edwards_d * p.t * q.t))⟩ ∧
    p.double params = p.add p params := by
  refine ⟨?_, rfl⟩
  simp only [Point.add]

/-- C3: the equality test returns true iff X1 Z2 = X2 Z1 and Y1 Z2 = Y2 Z1;
scaling all four coordinates by a nonzero field element yields a point
comparing equal to the original; and the T coordinates play no role. -/
theorem c3_eq_cross_multiply (p q : Point F) (c : F) (hc : c ≠ 0) :
    (p.beq q = true ↔ (p.x * q.z = q.x * p.z ∧ p.y * q.z = q.y * p.z)) ∧
    (Point.beq ⟨c * p.x, c * p.y, c * p.t, c * p.z⟩ p = true) ∧
    (∀ t1 t2 : F, Point.beq ⟨p.x, p.y, t1, p.z⟩ q = Point.beq ⟨p.x, p.y, t2, p.z⟩ q) := by
  refine ⟨?_, ?_, ?_⟩
  · simp [Point.beq]
  · simp only [Point.beq]
    have h1 : c * p.x * p.z = p.x * (c * p.z) := by ring
    have h2 : c * p.y * p.z = p.y * (c * p.z) := by ring
    simp [h1, h2]
  · intro t1 t2
    simp [Point.beq]

namespace Point

lemma zero_double (params : JubjubParams F) : (zero : Point F).double params = zero := by
  simp only [double, add, zero, Point.mk.injEq]
  norm_num

lemma foldl_step_zero (p : Point F) (params : JubjubParams F) :
    ∀ (bits : List Bool), (∀ b ∈ bits, b = false) →
      p.mulBits params bits = zero := by
  intro bits
  induction bits with
  | nil => intro _; rfl
  | cons b rest ih =>
    intro h
    have hb : b = false := h b (by simp)
    have hr : ∀ b ∈ rest, b = false := fun c hc => h c (by simp [hc])
    subst hb
    simp only [mulBits, List.foldl_cons] at *
    rw [if_neg (by simp), zero_double]
    exact ih hr

lemma add_smul_left (c : F) (p q : Point F) (params : JubjubParams F) :
    (smul c p).add q params = smul (c ^ 2) (p.add q params) := by
  simp only [add, smul, Point.mk.injEq]
  refine ⟨by ring, by ring, by ring, by ring⟩

lemma add_smul_right (c : F) (p q : Point F) (params : JubjubParams F) :
    p.add (smul c q) params = smul (c ^ 2) (p.add q params) := by
  simp only [add, smul, Point.mk.injEq]
  refine ⟨by ring, by ring, by ring, by ring⟩

lemma smul_smul_eq (a b : F) (p : Point F) : smul a (smul b p) = smul (a * b) p := by
  simp only [smul, Point.mk.injEq]
  refine ⟨by ring, by ring, by ring, by ring⟩

lemma double_smul (c : F) (p : Point F) (params : JubjubParams F) :
    (smul c p).double params = smul (c ^ 4) (p.double params) := by
  unfold double
  rw [add_smul_left, add_smul_right, smul_smul_eq]
  have hc : c ^ 2 * c ^ 2 = c ^ 4 := by ring
  rw [hc]

lemma beq_smul (c : F) (p : Point F) : (smul c p).beq p = true := by
  simp only [beq, smul, Bool.and_eq_true, decide_eq_true_eq]
  exact ⟨by ring, by ring⟩

lemma zero_add_eq (p : Point F) (params : JubjubParams F) (h : p.t * p.z = p.x * p.y) :
    Point.zero.add p params = smul p.z p := by
  simp only [add, zero, smul, Point.mk.injEq]
  refine ⟨by ring, by ring, ?_, by ring⟩
  ring_nf
  linear_combination -h

lemma natBits_succ (w n : Nat) : natBits (w + 1) n = n.testBit w :: natBits w n := by
  simp only [natBits, List.range_succ_eq_map, List.map_cons, List.map_map]
  rw [List.cons_eq_cons]
  refine ⟨by congr 1, ?_⟩
  apply List.map_congr_left
  intro i _
  simp only [Function.comp_apply]
  congr 1
  omega

lemma mul_eight (p : Point F) (params : JubjubParams F) :
    ∀ w, 4 ≤ w → p.mul params w 8 =
      (((Point.zero.add p params).double params).double params).double params := by
  intro w hw
  induction w, hw using Nat.le_induction with
  | base =>
    have hb : natBits 4 8 = [true, false, false, false] := by decide
    have hstep : p.mulBits params [true, false, false, false] =
        ((((Point.zero.double params).add p params).double params).double params).double
          params := rfl
    show p.mulBits params (natBits 4 8) = _
    rw [hb, hstep, zero_double]
  | succ w hw ih =>
    have hbit : Nat.testBit 8 w = false := by
      apply Nat.testBit_lt_two_pow
      calc 8 < 2 ^ 4 := by norm_num
      _ ≤ 2 ^ w := Nat.pow_le_pow_right (by norm_num) hw
    have hcons : p.mul params (w + 1) 8 = p.mulBits params (false :: natBits w 8) := by
      rw [mul, natBits_succ, hbit]
    have hred : p.mulBits params (false :: natBits w 8) =
        (natBits w 8).foldl
          (fun res b => let r := res.double params; if b then r.add p params else r)
          (Point.zero.double params) := rfl
    rw [hcons, hred, zero_double]
    exact ih

end Point

namespace Point

lemma mulCount_general (p : Point F) (params : JubjubParams F) :
    ∀ (bits : List Bool) (acc : Point F) (k : Nat),
      bits.foldl (fun acc2 b =>
        let r := acc2.1.double params
        (if b then r.add p params else r, acc2.2 + 1)) (acc, k) =
      (bits.foldl (fun res b =>
        let r := res.double params
        if b then r.add p params else r) acc, k + bits.length) := by
  intro bits
  induction bits with
  | nil =>
    intro acc k
    simp
  | cons b rest ih =>
    intro acc k
    simp only [List.foldl_cons]
    show rest.foldl _
        ((if b then (acc.double params).add p params else acc.double params), k + 1) = _
    rw [ih ((if b then (acc.double params).add p params else acc.double params)) (k + 1)]
    simp only [Prod.mk.injEq, List.length_cons]
    exact ⟨trivial, by omega⟩

end Point

/-- C4: mul converts the scalar to its fixed-width most-significant-bit-first
representation and folds double-and-conditional-add over it from the identity
accumulator, performing exactly one double per bit. -/
theorem c4_mul_double_and_add (params : JubjubParams F) (p : Point F) (w n i : Nat)
    (hi : i < w) :
    p.mul params w n =
      (Point.natBits w n).foldl
        (fun res b => if b then (res.double params).add p params else res.double params)
        Point.zero ∧
    (Point.natBits w n).length = w ∧
    (Point.natBits w n).getD i false = n.testBit (w - 1 - i) ∧
    (p.mulCount params (Point.natBits w n)).1 = p.mul params w n ∧
    (p.mulCount params (Point.natBits w n)).2 = w := by
  have hmc : p.mulCount params (Point.natBits w n) =
      (p.mulBits params (Point.natBits w n), 0 + (Point.natBits w n).length) :=
    Point.mulCount_general p params (Point.natBits w n) Point.zero 0
  refine ⟨rfl, by simp [Point.natBits], ?_, ?_, ?_⟩
  · simp only [Point.natBits, List.getD_eq_getElem?_getD, List.getElem?_map]
    rw [List.getElem?_range hi]
    rfl
  · rw [hmc]
    rfl
  · rw [hmc]
    show 0 + (Point.natBits w n).length = w
    simp [Point.natBits]

/-- C5: as_prime_order succeeds exactly when multiplying by the scalar-field
order compares equal to zero; on success it returns the input coordinates
unchanged and otherwise it returns none. -/
theorem c5_as_prime_order (params : JubjubParams F) (w r : Nat) (p : Point F) :
    ((∃ q, p.as_prime_order params w r = some q) ↔
      (p.mul params w r).beq Point.zero = true) ∧
    (∀ q, p.as_prime_order params w r = some q → q = p) ∧
    ((p.mul params w r).beq Point.zero = false → p.as_prime_order params w r = none) := by
  by_cases h : (p.mul params w r).beq Point.zero = true
  · refine ⟨⟨fun _ => h, fun _ => ⟨p, ?_⟩⟩, ?_, ?_⟩
    · unfold Point.as_prime_order
      rw [if_pos h]
    · intro q hq
      unfold Point.as_prime_order at hq
      rw [if_pos h] at hq
      exact (Option.some_inj.mp hq).symm
    · intro hf
      rw [h] at hf
      cases hf
  · have hn : p.as_prime_order params w r = none := by
      unfold Point.as_prime_order
      rw [if_neg h]
    refine ⟨⟨?_, fun hh => absurd hh h⟩, ?_, fun _ => hn⟩
    · intro hex
      obtain ⟨q, hq⟩ := hex
      rw [hn] at hq
      cases hq
    · intro q hq
      rw [hn] at hq
      cases hq

/-- C6: mul_by_cofactor applies double three times, and on any point
satisfying the extended-coordinate invariant it agrees, under the
projective equality test, with multiplication by the scalar 8. -/
theorem c6_mul_by_cofactor (params : JubjubParams F) (p : Point F)
    (h : p.t * p.z = p.x * p.y) (w : Nat) (hw : 4 ≤ w) :
    p.mul_by_cofactor params = ((p.double params).double params).double params ∧
    (p.mul params w 8).beq (p.mul_by_cofactor params) = true := by
  refine ⟨rfl, ?_⟩
  rw [Point.mul_eight p params w hw, Point.zero_add_eq p params h, Point.double_smul,
    Point.double_smul, Point.double_smul]
  exact Point.beq_smul _ _

/-- C9: zero returns exactly the quadruple (0, 1, 0, 1), and it is a
two-sided identity for add under the projective equality test. -/
theorem c9_zero_identity (params : JubjubParams F) (p : Point F) (hz : p.z ≠ 0) :
    (Point.zero : Point F) = ⟨0, 1, 0, 1⟩ ∧
    (p.add Point.zero params).beq p = true ∧
    (Point.zero.add p params).beq p = true := by
  refine ⟨rfl, ?_, ?_⟩
  · simp only [Point.beq, Point.add, Point.zero, Bool.and_eq_true, decide_eq_true_eq]
    exact ⟨by ring, by ring⟩
  · simp only [Point.beq, Point.add, Point.zero, Bool.and_eq_true, decide_eq_true_eq]
    exact ⟨by ring, by ring⟩

/-- C10: a scalar whose fixed-width bit representation is all zeros
multiplies any point to the exact identity quadruple (0, 1, 0, 1), and
adding zero to zero reproduces the identity quadruple exactly. -/
theorem c10_mul_zero_bits (params : JubjubParams F) (p : Point F) (w n : Nat)
    (h : ∀ b ∈ Point.natBits w n, b = false) :
    Point.zero.add Point.zero params = (⟨0, 1, 0, 1⟩ : Point F) ∧
    p.mul params w n = (⟨0, 1, 0, 1⟩ : Point F) := by
  constructor
  · have := Point.zero_double (F := F) params
    simpa [Point.double, Point.zero] using this
  · exact Point.foldl_step_zero p params _ h
namespace Point

lemma ed_complete (dd a1 b1 a2 b2 e : F) (hdd : ∀ u : F, u * u ≠ dd)
    (hchar : (2 : F) ≠ 0)
    (h1 : a1 ^ 2 + b1 ^ 2 = 1 + dd * a1 ^ 2 * b1 ^ 2)
    (h2 : a2 ^ 2 + b2 ^ 2 = 1 + dd * a2 ^ 2 * b2 ^ 2)
    (he : e * e = 1) (hp : dd * a1 * a2 * b1 * b2 = e) : False := by
  have ha1 : a1 ≠ 0 := by
    intro h0
    apply one_ne_zero (α := F)
    rw [← he, ← hp, h0]
    ring
  have hb1 : b1 ≠ 0 := by
    intro h0
    apply one_ne_zero (α := F)
    rw [← he, ← hp, h0]
    ring
  have ha2 : a2 ≠ 0 := by
    intro h0
    apply one_ne_zero (α := F)
    rw [← he, ← hp, h0]
    ring
  have hb2 : b2 ≠ 0 := by
    intro h0
    apply one_ne_zero (α := F)
    rw [← he, ← hp, h0]
    ring
  have key1 : dd * (a1 * b1 * (a2 + e * b2)) ^ 2 = (a1 + b1) ^ 2 := by
    linear_combination (-1 : F) * h1 + (dd * a1 ^ 2 * b1 ^ 2) * h2 +
      (dd * a1 ^ 2 * b1 ^ 2 * b2 ^ 2 + 2 * a1 * b1 + 1) * he +
      (2 * e * a1 * b1 + dd * a1 * a2 * b1 * b2 + e) * hp
  have key2 : dd * (a1 * b1 * (a2 - e * b2)) ^ 2 = (a1 - b1) ^ 2 := by
    linear_combination (-1 : F) * h1 + (dd * a1 ^ 2 * b1 ^ 2) * h2 +
      (dd * a1 ^ 2 * b1 ^ 2 * b2 ^ 2 - 2 * a1 * b1 + 1) * he +
      (-2 * e * a1 * b1 + dd * a1 * a2 * b1 * b2 + e) * hp
  by_cases hc : a2 + e * b2 = 0
  · by_cases hc2 : a2 - e * b2 = 0
    · apply ha2
      have h2a : 2 * a2 = 0 := by linear_combination hc + hc2
      rcases mul_eq_zero.mp h2a with h | h
      · exact absurd h hchar
      · exact h
    · apply hdd ((a1 - b1) / (a1 * b1 * (a2 - e * b2)))
      have hne : a1 * b1 * (a2 - e * b2) ≠ 0 :=
        mul_ne_zero (mul_ne_zero ha1 hb1) hc2
      field_simp
      linear_combination -key2
  · apply hdd ((a1 + b1) / (a1 * b1 * (a2 + e * b2)))
    have hne : a1 * b1 * (a2 + e * b2) ≠ 0 :=
      mul_ne_zero (mul_ne_zero ha1 hb1) hc
    field_simp
    linear_combination -key1

lemma twisted_complete (d a1 b1 a2 b2 i : F) (hi : i * i = -1)
    (hd : ∀ u : F, u * u ≠ d) (hchar : (2 : F) ≠ 0)
    (h1 : b1 ^ 2 - a1 ^ 2 = 1 + d * a1 ^ 2 * b1 ^ 2)
    (h2 : b2 ^ 2 - a2 ^ 2 = 1 + d * a2 ^ 2 * b2 ^ 2) :
    1 + d * (a1 * a2 * b1 * b2) ≠ 0 ∧ 1 - d * (a1 * a2 * b1 * b2) ≠ 0 := by
  have hi0 : i ≠ 0 := by
    intro h0
    rw [h0] at hi
    apply one_ne_zero (α := F)
    linear_combination hi
  have hdneg : ∀ u : F, u * u ≠ -d := by
    intro u hu
    apply hd (u / i)
    field_simp
    linear_combination hu - d * hi
  have h1t : (i * a1) ^ 2 + b1 ^ 2 = 1 + (-d) * (i * a1) ^ 2 * b1 ^ 2 := by
    linear_combination h1 + (a1 ^ 2 + d * a1 ^ 2 * b1 ^ 2) * hi
  have h2t : (i * a2) ^ 2 + b2 ^ 2 = 1 + (-d) * (i * a2) ^ 2 * b2 ^ 2 := by
    linear_combination h2 + (a2 ^ 2 + d * a2 ^ 2 * b2 ^ 2) * hi
  constructor
  · intro h0
    apply ed_complete (-d) (i * a1) b1 (i * a2) b2 (-1) hdneg hchar h1t h2t (by ring)
    linear_combination h0 - d * a1 * a2 * b1 * b2 * hi
  · intro h0
    apply ed_complete (-d) (i * a1) b1 (i * a2) b2 1 hdneg hchar h1t h2t (by ring)
    linear_combination -h0 - d * a1 * a2 * b1 * b2 * hi

lemma add_closure_cleared (d x1 y1 x2 y2 : F)
    (h1 : y1 ^ 2 - x1 ^ 2 = 1 + d * x1 ^ 2 * y1 ^ 2)
    (h2 : y2 ^ 2 - x2 ^ 2 = 1 + d * x2 ^ 2 * y2 ^ 2) :
    (y1 * y2 + x1 * x2) ^ 2 * (1 + d * (x1 * x2 * y1 * y2)) ^ 2 -
        (x1 * y2 + x2 * y1) ^ 2 * (1 - d * (x1 * x2 * y1 * y2)) ^ 2 =
      (1 - d * (x1 * x2 * y1 * y2)) ^ 2 * (1 + d * (x1 * x2 * y1 * y2)) ^ 2 +
        d * (x1 * y2 + x2 * y1) ^ 2 * (y1 * y2 + x1 * x2) ^ 2 := by
  linear_combination
    ((1 + d * x2 ^ 2 * y2 ^ 2) * (1 + d ^ 2 * x1 ^ 2 * y1 ^ 2 * x2 ^ 2 * y2 ^ 2) -
      d * x2 ^ 2 * y2 ^ 2 *
        (2 + 2 * d * x1 ^ 2 * y1 ^ 2 + (y1 ^ 2 - x1 ^ 2 - 1 - d * x1 ^ 2 * y1 ^ 2))) * h1 +
    ((1 + d * x1 ^ 2 * y1 ^ 2) * (1 + d ^ 2 * x1 ^ 2 * y1 ^ 2 * x2 ^ 2 * y2 ^ 2) -
      d * x1 ^ 2 * y1 ^ 2 *
        (2 + 2 * d * x2 ^ 2 * y2 ^ 2 + (y2 ^ 2 - x2 ^ 2 - 1 - d * x2 ^ 2 * y2 ^ 2)) +
      (y1 ^ 2 - x1 ^ 2 - 1 - d * x1 ^ 2 * y1 ^ 2) *
        (1 + d ^ 2 * x1 ^ 2 * y1 ^ 2 * x2 ^ 2 * y2 ^ 2)) * h2

lemma onCurve_add (d x1 y1 x2 y2 : F)
    (h1 : onCurve d x1 y1) (h2 : onCurve d x2 y2)
    (hp : 1 + d * (x1 * x2 * y1 * y2) ≠ 0) (hm : 1 - d * (x1 * x2 * y1 * y2) ≠ 0) :
    onCurve d ((x1 * y2 + x2 * y1) / (1 + d * (x1 * x2 * y1 * y2)))
      ((y1 * y2 + x1 * x2) / (1 - d * (x1 * x2 * y1 * y2))) := by
  unfold onCurve at h1 h2 ⊢
  rw [div_pow, div_pow]
  field_simp
  linear_combination
    ((1 + d * (x1 * x2 * y1 * y2)) ^ 2 * (1 - d * (x1 * x2 * y1 * y2)) ^ 2) *
      add_closure_cleared d x1 y1 x2 y2 h1 h2

end Point
namespace Point

lemma represents_add (params : JubjubParams F) (p q : Point F) (a1 b1 a2 b2 : F)
    (hp : represents p a1 b1) (hq : represents q a2 b2)
    (hplus : 1 + params.edwards_d * (a1 * a2 * b1 * b2) ≠ 0)
    (hminus : 1 - params.edwards_d * (a1 * a2 * b1 * b2) ≠ 0) :
    represents (p.add q params)
      ((a1 * b2 + a2 * b1) / (1 + params.edwards_d * (a1 * a2 * b1 * b2)))
      ((b1 * b2 + a1 * a2) / (1 - params.edwards_d * (a1 * a2 * b1 * b2))) := by
  obtain ⟨hz1, hx1, hy1, ht1⟩ := hp
  obtain ⟨hz2, hx2, hy2, ht2⟩ := hq
  have hz3 : (p.add q params).z =
      (p.z * q.z) ^ 2 *
        ((1 - params.edwards_d * (a1 * a2 * b1 * b2)) *
          (1 + params.edwards_d * (a1 * a2 * b1 * b2))) := by
    simp only [add]
    simp only [hx1, hy1, ht1, hx2, hy2, ht2]
    ring
  refine ⟨?_, ?_, ?_, ?_⟩
  · rw [hz3]
    exact mul_ne_zero (pow_ne_zero 2 (mul_ne_zero hz1 hz2)) (mul_ne_zero hminus hplus)
  · show (p.add q params).x = _
    rw [hz3]
    simp only [add]
    simp only [hx1, hy1, ht1, hx2, hy2, ht2]
    field_simp
    ring
  · show (p.add q params).y = _
    rw [hz3]
    simp only [add]
    simp only [hx1, hy1, ht1, hx2, hy2, ht2]
    field_simp
    ring
  · show (p.add q params).t = _
    rw [hz3]
    simp only [add]
    simp only [hx1, hy1, ht1, hx2, hy2, ht2]
    field_simp
    ring

lemma WF_zero (params : JubjubParams F) : WF params (zero : Point F) := by
  refine ⟨0, 1, ⟨one_ne_zero, ?_, ?_, ?_⟩, ?_⟩
  · show (0 : F) = 0 * 1
    ring
  · show (1 : F) = 1 * 1
    ring
  · show (0 : F) = 0 * 1 * 1
    ring
  · show (1 : F) ^ 2 - 0 ^ 2 = 1 + params.edwards_d * 0 ^ 2 * 1 ^ 2
    ring

lemma WF_negate (params : JubjubParams F) (p : Point F) (hp : WF params p) :
    WF params p.negate := by
  obtain ⟨a, b, ⟨hz, hx, hy, ht⟩, hc⟩ := hp
  refine ⟨-a, b, ⟨hz, ?_, ?_, ?_⟩, ?_⟩
  · show -p.x = -a * p.z
    rw [hx]
    ring
  · exact hy
  · show -p.t = -a * b * p.z
    rw [ht]
    ring
  · unfold onCurve at hc ⊢
    linear_combination hc

lemma WF_add (params : JubjubParams F) (i : F) (hi : i * i = -1)
    (hd : ∀ u : F, u * u ≠ params.edwards_d) (hchar : (2 : F) ≠ 0)
    (p q : Point F) (hp : WF params p) (hq : WF params q) :
    WF params (p.add q params) := by
  obtain ⟨a1, b1, hr1, hc1⟩ := hp
  obtain ⟨a2, b2, hr2, hc2⟩ := hq
  obtain ⟨hplus, hminus⟩ :=
    twisted_complete params.edwards_d a1 b1 a2 b2 i hi hd hchar hc1 hc2
  exact ⟨_, _, represents_add params p q a1 b1 a2 b2 hr1 hr2 hplus hminus,
    onCurve_add params.edwards_d a1 b1 a2 b2 hc1 hc2 hplus hminus⟩

lemma WF_double (params : JubjubParams F) (i : F) (hi : i * i = -1)
    (hd : ∀ u : F, u * u ≠ params.edwards_d) (hchar : (2 : F) ≠ 0)
    (p : Point F) (hp : WF params p) : WF params (p.double params) :=
  WF_add params i hi hd hchar p p hp hp

lemma WF_mul_by_cofactor (params : JubjubParams F) (i : F) (hi : i * i = -1)
    (hd : ∀ u : F, u * u ≠ params.edwards_d) (hchar : (2 : F) ≠ 0)
    (p : Point F) (hp : WF params p) : WF params (p.mul_by_cofactor params) :=
  WF_double params i hi hd hchar _
    (WF_double params i hi hd hchar _ (WF_double params i hi hd hchar _ hp))

lemma WF_mulBits (params : JubjubParams F) (i : F) (hi : i * i = -1)
    (hd : ∀ u : F, u * u ≠ params.edwards_d) (hchar : (2 : F) ≠ 0)
    (p : Point F) (hp : WF params p) (bits : List Bool) :
    WF params (p.mulBits params bits) := by
  suffices h : ∀ acc : Point F, WF params acc →
      WF params (bits.foldl
        (fun res b => let r := res.double params; if b then r.add p params else r) acc) from
    h zero (WF_zero params)
  induction bits with
  | nil => intro acc hacc; exact hacc
  | cons b rest ih =>
    intro acc hacc
    rw [List.foldl_cons]
    apply ih
    have hdbl : WF params (acc.double params) := WF_double params i hi hd hchar acc hacc
    by_cases hb : b = true
    · rw [hb]
      simpa using WF_add params i hi hd hchar _ p hdbl hp
    · rw [Bool.not_eq_true] at hb
      rw [hb]
      simpa using hdbl

lemma WF_mul (params : JubjubParams F) (i : F) (hi : i * i = -1)
    (hd : ∀ u : F, u * u ≠ params.edwards_d) (hchar : (2 : F) ≠ 0)
    (p : Point F) (hp : WF params p) (w n : Nat) :
    WF params (p.mul params w n) :=
  WF_mulBits params i hi hd hchar p hp (natBits w n)

end Point
namespace Point

lemma randStep_eval (sqrtF : F → Option F) (isOddF : F → Bool) (params : JubjubParams F)
    (x : F) (b : Bool) (y0 : F)
    (hden : ¬1 - x * x * params.edwards_d = 0)
    (hsq : sqrtF ((1 + x * x) * (1 - x * x * params.edwards_d)⁻¹) = some y0) :
    randStep sqrtF isOddF params x b =
      some ⟨x, if isOddF y0 != b then -y0 else y0,
        x * (if isOddF y0 != b then -y0 else y0), 1⟩ := by
  simp only [randStep, inv]
  rw [if_neg hden]
  simp only [hsq]

lemma randStep_some (sqrtF : F → Option F) (isOddF : F → Bool) (params : JubjubParams F)
    (x : F) (b : Bool) (p : Point F)
    (h : randStep sqrtF isOddF params x b = some p) :
    1 - x * x * params.edwards_d ≠ 0 ∧
    ∃ y0, sqrtF ((1 + x * x) * (1 - x * x * params.edwards_d)⁻¹) = some y0 ∧
      p = ⟨x, if isOddF y0 != b then -y0 else y0,
            x * (if isOddF y0 != b then -y0 else y0), 1⟩ := by
  simp only [randStep, inv] at h
  split at h
  next heq => exact Option.noConfusion h
  next invden heq =>
    have hden : ¬1 - x * x * params.edwards_d = 0 := by
      intro h0
      rw [if_pos h0] at heq
      exact Option.noConfusion heq
    rw [if_neg hden] at heq
    have hinv : invden = (1 - x * x * params.edwards_d)⁻¹ := (Option.some_inj.mp heq).symm
    subst hinv
    refine ⟨hden, ?_⟩
    split at h
    next hsq => exact Option.noConfusion h
    next y0 hsq => exact ⟨y0, hsq, (Option.some_inj.mp h).symm⟩

lemma WF_randStep (sqrtF : F → Option F) (isOddF : F → Bool) (params : JubjubParams F)
    (x : F) (b : Bool) (p : Point F)
    (hs : ∀ a r, sqrtF a = some r → r * r = a)
    (h : randStep sqrtF isOddF params x b = some p) : WF params p := by
  obtain ⟨hden, y0, hsq, hp⟩ := randStep_some sqrtF isOddF params x b p h
  subst hp
  have hyy : (if isOddF y0 != b then -y0 else y0) * (if isOddF y0 != b then -y0 else y0) =
      (1 + x * x) * (1 - x * x * params.edwards_d)⁻¹ := by
    have h0 := hs _ _ hsq
    by_cases hb : isOddF y0 != b
    · rw [if_pos hb]
      linear_combination h0
    · rw [if_neg hb]
      exact h0
  have hcurve : onCurve params.edwards_d x (if isOddF y0 != b then -y0 else y0) := by
    unfold onCurve
    have hyy2 : (if isOddF y0 != b then -y0 else y0) *
        (if isOddF y0 != b then -y0 else y0) * (1 - x * x * params.edwards_d) =
        1 + x * x := by
      rw [hyy]
      field_simp
    linear_combination hyy2
  refine ⟨x, if isOddF y0 != b then -y0 else y0, ⟨one_ne_zero, ?_, ?_, ?_⟩, hcurve⟩
  · show x = x * 1
    ring
  · show (if isOddF y0 != b then -y0 else y0) = (if isOddF y0 != b then -y0 else y0) * 1
    ring
  · show x * (if isOddF y0 != b then -y0 else y0) =
      x * (if isOddF y0 != b then -y0 else y0) * 1
    ring

lemma WF_from_montgomery (params : JubjubParams F)
    (hd : ∀ u : F, u * u ≠ params.edwards_d) (hchar : (2 : F) ≠ 0)
    (hm1 : params.scale ^ 2 * (1 + params.edwards_d) = -4)
    (hm2 : params.scale ^ 2 * (params.edwards_d - 1) = 2 * params.montgomery_a)
    (m : Option (F × F))
    (hgen : ∀ u v, m = some (u, v) → v ^ 2 = u ^ 3 + params.montgomery_a * u ^ 2 + u) :
    WF params (from_montgomery params m) := by
  have hs0 : params.scale ≠ 0 := by
    intro h0
    apply hchar
    have h4 : (-4 : F) = 0 := by
      rw [← hm1, h0]
      ring
    have h22 : (2 : F) * 2 = 0 := by linear_combination -h4
    rcases mul_eq_zero.mp h22 with h | h
    · exact h
    · exact h
  have hA2 : params.montgomery_a - 2 = params.scale ^ 2 * params.edwards_d := by
    have h2 : (2 : F) * (params.montgomery_a - 2) =
        2 * (params.scale ^ 2 * params.edwards_d) := by
      linear_combination -hm1 - hm2
    exact mul_left_cancel₀ hchar h2
  cases m with
  | none => exact WF_zero params
  | some uv =>
    obtain ⟨u, v⟩ := uv
    have hcv : v ^ 2 = u ^ 3 + params.montgomery_a * u ^ 2 + u := hgen u v rfl
    have he : from_montgomery params (some (u, v)) =
        if v = 0 then ⟨0, -1, 0, 1⟩
        else ⟨u * params.scale * (u + 1), (u - 1) * v,
          u * params.scale * (u - 1), (u + 1) * v⟩ := rfl
    rw [he]
    by_cases hv : v = 0
    · rw [if_pos hv]
      refine ⟨0, -1, ⟨one_ne_zero, ?_, ?_, ?_⟩, ?_⟩
      · show (0 : F) = 0 * 1
        ring
      · show (-1 : F) = -1 * 1
        ring
      · show (0 : F) = 0 * -1 * 1
        ring
      · show (-1 : F) ^ 2 - 0 ^ 2 = 1 + params.edwards_d * 0 ^ 2 * (-1) ^ 2
        ring
    · rw [if_neg hv]
      have hu1 : u + 1 ≠ 0 := by
        intro h0
        apply hd (v / params.scale)
        have hv2 : v ^ 2 = params.scale ^ 2 * params.edwards_d := by
          linear_combination hcv +
            (u ^ 2 + (params.montgomery_a - 1) * u + (2 - params.montgomery_a)) * h0 + hA2
        field_simp
        linear_combination hv2
      refine ⟨params.scale * u / v, (u - 1) / (u + 1), ⟨?_, ?_, ?_, ?_⟩, ?_⟩
      · exact mul_ne_zero hu1 hv
      · show u * params.scale * (u + 1) = params.scale * u / v * ((u + 1) * v)
        field_simp
        ring
      · show (u - 1) * v = (u - 1) / (u + 1) * ((u + 1) * v)
        field_simp
        ring
      · show u * params.scale * (u - 1) =
          params.scale * u / v * ((u - 1) / (u + 1)) * ((u + 1) * v)
        field_simp
        ring
      · unfold onCurve
        rw [div_pow, div_pow]
        field_simp
        linear_combination (v ^ 2 * (u + 1) ^ 2 * ((u - 1) ^ 2 - (u + 1) ^ 2)) * hcv +
          (-(v ^ 2 * (u + 1) ^ 2 * u ^ 2 * (u ^ 2 + 1))) * hm1 +
          (2 * u ^ 3 * v ^ 2 * (u + 1) ^ 2) * hm2

lemma Produced_WF (params : JubjubParams F) (i : F) (hi : i * i = -1)
    (hd : ∀ u : F, u * u ≠ params.edwards_d) (hchar : (2 : F) ≠ 0)
    (hm1 : params.scale ^ 2 * (1 + params.edwards_d) = -4)
    (hm2 : params.scale ^ 2 * (params.edwards_d - 1) = 2 * params.montgomery_a)
    (p : Point F) (hp : Produced params p) : WF params p := by
  induction hp with
  | zero_mem => exact WF_zero params
  | negate_mem q _ ih => exact WF_negate params q ih
  | add_mem q r _ _ ihq ihr => exact WF_add params i hi hd hchar q r ihq ihr
  | double_mem q _ ih => exact WF_double params i hi hd hchar q ih
  | mul_mem q w n _ ih => exact WF_mul params i hi hd hchar q ih w n
  | mul_by_cofactor_mem q _ ih => exact WF_mul_by_cofactor params i hi hd hchar q ih
  | rand_mem sqrtF isOddF x b q hs h => exact WF_randStep sqrtF isOddF params x b q hs h
  | from_montgomery_mem m hgen => exact WF_from_montgomery params hd hchar hm1 hm2 m hgen

end Point

/-- C2: under the genuine Jubjub parameter assumptions (the base field
contains a square root of -1 and has characteristic other than 2, the
Edwards coefficient d is a nonsquare, and the scale factor relates the
Montgomery and Edwards coefficients), every point produced by zero,
negate, add, double, mul, mul_by_cofactor, rand, or from_montgomery on a
genuine Montgomery-curve point satisfies T Z = X Y and has Z nonzero, so
into_xy succeeds and returns (X/Z, Y/Z). -/
theorem c2_invariants (params : JubjubParams F) (hi : ∃ i : F, i * i = -1)
    (hd : ∀ u : F, u * u ≠ params.edwards_d) (hchar : (2 : F) ≠ 0)
    (hm1 : params.scale ^ 2 * (1 + params.edwards_d) = -4)
    (hm2 : params.scale ^ 2 * (params.edwards_d - 1) = 2 * params.montgomery_a)
    (p : Point F) (hp : Point.Produced params p) :
    p.t * p.z = p.x * p.y ∧ p.z ≠ 0 ∧ p.into_xy = some (p.x / p.z, p.y / p.z) := by
  obtain ⟨i, hii⟩ := hi
  obtain ⟨a, b, ⟨hz, hx, hy, ht⟩, _⟩ :=
    Point.Produced_WF params i hii hd hchar hm1 hm2 p hp
  refine ⟨?_, hz, ?_⟩
  · rw [hx, hy, ht]
    ring
  · unfold Point.into_xy Point.inv
    rw [if_neg hz]
    rw [div_eq_mul_inv, div_eq_mul_inv]

/-- C7: from_montgomery maps the point at infinity to the identity
quadruple (0, 1, 0, 1), an affine point with y = 0 to (0, -1, 0, 1), and
an affine point with y nonzero to the quadruple
(x s (x+1), y (x-1), x s (x-1), y (x+1)); it is total over these cases. -/
theorem c7_from_montgomery (params : JubjubParams F) (x y : F) (hy : y ≠ 0) :
    Point.from_montgomery params (none : Option (F × F)) = ⟨0, 1, 0, 1⟩ ∧
    Point.from_montgomery params (some (x, 0)) = ⟨0, -1, 0, 1⟩ ∧
    Point.from_montgomery params (some (x, y)) =
      ⟨x * params.scale * (x + 1), y * (x - 1),
        x * params.scale * (x - 1), y * (x + 1)⟩ := by
  refine ⟨rfl, ?_, ?_⟩
  · have he : Point.from_montgomery params (some (x, (0 : F))) =
        if (0 : F) = 0 then ⟨0, -1, 0, 1⟩
        else ⟨x * params.scale * (x + 1), (x - 1) * 0,
          x * params.scale * (x - 1), (x + 1) * 0⟩ := rfl
    rw [he, if_pos rfl]
  · have he : Point.from_montgomery params (some (x, y)) =
        if y = 0 then ⟨0, -1, 0, 1⟩
        else ⟨x * params.scale * (x + 1), (x - 1) * y,
          x * params.scale * (x - 1), (x + 1) * y⟩ := rfl
    rw [he, if_neg hy]
    simp only [Point.mk.injEq]
    exact ⟨trivial, by ring, trivial, by ring⟩

namespace Point

lemma randStep_props (sqrtF : F → Option F) (isOddF : F → Bool) (params : JubjubParams F)
    (x : F) (b : Bool) (p : Point F)
    (hs : ∀ a r, sqrtF a = some r → r * r = a)
    (hodd : ∀ y : F, y ≠ 0 → isOddF (-y) = !isOddF y)
    (h : randStep sqrtF isOddF params x b = some p) :
    p.z = 1 ∧ p.x = x ∧ p.t = p.x * p.y ∧
    1 - x * x * params.edwards_d ≠ 0 ∧
    (∃ y0, sqrtF ((1 + x * x) * (1 - x * x * params.edwards_d)⁻¹) = some y0) ∧
    p.y ^ 2 - p.x ^ 2 = 1 + params.edwards_d * p.x ^ 2 * p.y ^ 2 ∧
    (p.y ≠ 0 → isOddF p.y = b) := by
  obtain ⟨hden, y0, hsq, hp⟩ := randStep_some sqrtF isOddF params x b p h
  subst hp
  refine ⟨rfl, rfl, rfl, hden, ⟨y0, hsq⟩, ?_, ?_⟩
  · have h0 := hs _ _ hsq
    have hyy : (if isOddF y0 != b then -y0 else y0) *
        (if isOddF y0 != b then -y0 else y0) =
        (1 + x * x) * (1 - x * x * params.edwards_d)⁻¹ := by
      by_cases hb : isOddF y0 != b
      · rw [if_pos hb]
        linear_combination h0
      · rw [if_neg hb]
        exact h0
    have hyy2 : (if isOddF y0 != b then -y0 else y0) *
        (if isOddF y0 != b then -y0 else y0) * (1 - x * x * params.edwards_d) =
        1 + x * x := by
      rw [hyy]
      field_simp
    show (if isOddF y0 != b then -y0 else y0) ^ 2 - x ^ 2 =
      1 + params.edwards_d * x ^ 2 * (if isOddF y0 != b then -y0 else y0) ^ 2
    linear_combination hyy2
  · show (if isOddF y0 != b then -y0 else y0) ≠ 0 →
      isOddF (if isOddF y0 != b then -y0 else y0) = b
    by_cases hb : isOddF y0 != b
    · rw [if_pos hb]
      intro hne
      have hy0 : y0 ≠ 0 := by
        intro h0
        apply hne
        rw [h0]
        ring
      rw [hodd y0 hy0]
      revert hb
      cases b <;> cases hb2 : isOddF y0 <;> simp_all
    · rw [if_neg hb]
      intro _
      revert hb
      cases b <;> cases hb2 : isOddF y0 <;> simp_all

end Point

/-- C8 (amended): a point returned by rand comes from a successful
iteration on some draw (x, b); it has Z = 1, X = x and T = X Y; the draw
is accepted only when the denominator is invertible and the quotient has
a square root; the returned affine point satisfies the curve equation;
and whenever the returned y coordinate is nonzero, its parity equals the
fresh random bit b of that iteration.  (The parity property cannot hold
when y = 0, since negating zero leaves the parity unchanged.) -/
theorem c8_rand_amended (sqrtF : F → Option F) (isOddF : F → Bool)
    (params : JubjubParams F) (draws : List (F × Bool)) (p : Point F)
    (hs : ∀ a r, sqrtF a = some r → r * r = a)
    (hodd : ∀ y : F, y ≠ 0 → isOddF (-y) = !isOddF y)
    (h : Point.rand sqrtF isOddF params draws = some p) :
    ∃ x b, (x, b) ∈ draws ∧ Point.randStep sqrtF isOddF params x b = some p ∧
      p.z = 1 ∧ p.x = x ∧ p.t = p.x * p.y ∧
      1 - x * x * params.edwards_d ≠ 0 ∧
      (∃ y0, sqrtF ((1 + x * x) * (1 - x * x * params.edwards_d)⁻¹) = some y0) ∧
      p.y ^ 2 - p.x ^ 2 = 1 + params.edwards_d * p.x ^ 2 * p.y ^ 2 ∧
      (p.y ≠ 0 → isOddF p.y = b) := by
  induction draws with
  | nil => exact Option.noConfusion h
  | cons xb rest ih =>
    obtain ⟨x, b⟩ := xb
    simp only [Point.rand] at h
    cases hstep : Point.randStep sqrtF isOddF params x b with
    | some q =>
      rw [hstep] at h
      have hq : q = p := Option.some_inj.mp h
      subst hq
      exact ⟨x, b, List.mem_cons_self (x, b) rest, hstep,
        Point.randStep_props sqrtF isOddF params x b q hs hodd hstep⟩
    | none =>
      rw [hstep] at h
      obtain ⟨x2, b2, hmem, hrest⟩ := ih h
      exact ⟨x2, b2, List.mem_cons_of_mem _ hmem, hrest⟩

/-- C8 counterexample: on the draw x = 5 with fresh bit true, the rand
iteration succeeds and returns the point with y = 0 (the candidate y
squared is zero there), whose parity is even and therefore does not equal
the drawn bit, contradicting the unconditional parity conjunct. -/
theorem c8_parity_counterexample :
    ∃ p : Point (ZMod 13),
      Point.randStep sqrtZ isOddZ paramsZ 5 true = some p ∧ isOddZ p.y ≠ true := by
  refine ⟨⟨5, 0, 0, 1⟩, ?_, by decide⟩
  have hnum : ((1 : ZMod 13) + 5 * 5) = 0 := by decide
  have hsq : sqrtZ (((1 : ZMod 13) + 5 * 5) *
      ((1 : ZMod 13) - 5 * 5 * paramsZ.edwards_d)⁻¹) = some 0 := by
    rw [hnum, zero_mul]
    decide
  rw [Point.randStep_eval sqrtZ isOddZ paramsZ 5 true 0 (by decide) hsq]
  decide

/-- Witness for C2 at the identity point over the 13-element field. -/
theorem c2_witness :
    (Point.zero : Point (ZMod 13)).t * Point.zero.z = Point.zero.x * Point.zero.y ∧
    (Point.zero : Point (ZMod 13)).z ≠ 0 ∧
    (Point.zero : Point (ZMod 13)).into_xy =
      some (Point.zero.x / Point.zero.z, Point.zero.y / Point.zero.z) :=
  c2_invariants paramsZ ⟨5, by decide⟩ (by decide) (by decide) (by decide) (by decide)
    Point.zero Point.Produced.zero_mem

/-- Witness for C3 on concrete points, with scale factor 2. -/
theorem c3_witness :
    (pW.beq ⟨2, 4, 6, 8⟩ = true ↔
      (pW.x * (⟨2, 4, 6, 8⟩ : Point (ZMod 13)).z =
        (⟨2, 4, 6, 8⟩ : Point (ZMod 13)).x * pW.z ∧
       pW.y * (⟨2, 4, 6, 8⟩ : Point (ZMod 13)).z =
        (⟨2, 4, 6, 8⟩ : Point (ZMod 13)).y * pW.z)) ∧
    Point.beq ⟨2 * pW.x, 2 * pW.y, 2 * pW.t, 2 * pW.z⟩ pW = true ∧
    Point.beq ⟨pW.x, pW.y, 5, pW.z⟩ ⟨2, 4, 6, 8⟩ =
      Point.beq ⟨pW.x, pW.y, 7, pW.z⟩ ⟨2, 4, 6, 8⟩ :=
  ⟨(c3_eq_cross_multiply pW ⟨2, 4, 6, 8⟩ 2 (by decide)).1,
   (c3_eq_cross_multiply pW ⟨2, 4, 6, 8⟩ 2 (by decide)).2.1,
   (c3_eq_cross_multiply pW ⟨2, 4, 6, 8⟩ 2 (by decide)).2.2 5 7⟩

/-- Witness for C4 with a 4-bit scalar representation holding 5. -/
theorem c4_witness :
    pW.mul paramsZ 4 5 =
      (Point.natBits 4 5).foldl
        (fun res b => if b then (res.double paramsZ).add pW paramsZ
          else res.double paramsZ) Point.zero ∧
    (Point.natBits 4 5).length = 4 ∧
    (Point.natBits 4 5).getD 1 false = Nat.testBit 5 (4 - 1 - 1) ∧
    (pW.mulCount paramsZ (Point.natBits 4 5)).1 = pW.mul paramsZ 4 5 ∧
    (pW.mulCount paramsZ (Point.natBits 4 5)).2 = 4 :=
  c4_mul_double_and_add paramsZ pW 4 5 1 (by decide)

/-- Witness for C5 at the identity point with a 4-bit order 13. -/
theorem c5_witness :
    ((∃ q, (Point.zero : Point (ZMod 13)).as_prime_order paramsZ 4 13 = some q) ↔
      ((Point.zero : Point (ZMod 13)).mul paramsZ 4 13).beq Point.zero = true) ∧
    (∀ q, (Point.zero : Point (ZMod 13)).as_prime_order paramsZ 4 13 = some q →
      q = Point.zero) ∧
    (((Point.zero : Point (ZMod 13)).mul paramsZ 4 13).beq Point.zero = false →
      (Point.zero : Point (ZMod 13)).as_prime_order paramsZ 4 13 = none) :=
  c5_as_prime_order paramsZ 4 13 Point.zero

/-- Witness for C6 on an invariant-satisfying point with a 5-bit scalar. -/
theorem c6_witness :
    pW2.mul_by_cofactor paramsZ =
      ((pW2.double paramsZ).double paramsZ).double paramsZ ∧
    (pW2.mul paramsZ 5 8).beq (pW2.mul_by_cofactor paramsZ) = true :=
  c6_mul_by_cofactor paramsZ pW2 (by decide) 5 (by decide)

/-- Witness for C7 at the affine Montgomery point (3, 2). -/
theorem c7_witness :
    Point.from_montgomery paramsZ (none : Option (ZMod 13 × ZMod 13)) = ⟨0, 1, 0, 1⟩ ∧
    Point.from_montgomery paramsZ (some (3, 0)) = ⟨0, -1, 0, 1⟩ ∧
    Point.from_montgomery paramsZ (some (3, 2)) =
      ⟨3 * paramsZ.scale * (3 + 1), 2 * (3 - 1),
        3 * paramsZ.scale * (3 - 1), 2 * (3 + 1)⟩ :=
  c7_from_montgomery paramsZ 3 2 (by decide)

/-- Witness for C8 on the accepting draw x = 2 with bit false. -/
theorem c8_witness :
    ∃ x b, (x, b) ∈ [((2 : ZMod 13), false)] ∧
      Point.randStep sqrtZ isOddZ paramsZ x b = some ⟨2, 4, 8, 1⟩ ∧
      (⟨2, 4, 8, 1⟩ : Point (ZMod 13)).z = 1 ∧
      (⟨2, 4, 8, 1⟩ : Point (ZMod 13)).x = x ∧
      (⟨2, 4, 8, 1⟩ : Point (ZMod 13)).t =
        (⟨2, 4, 8, 1⟩ : Point (ZMod 13)).x * (⟨2, 4, 8, 1⟩ : Point (ZMod 13)).y ∧
      1 - x * x * paramsZ.edwards_d ≠ 0 ∧
      (∃ y0, sqrtZ ((1 + x * x) * (1 - x * x * paramsZ.edwards_d)⁻¹) = some y0) ∧
      (⟨2, 4, 8, 1⟩ : Point (ZMod 13)).y ^ 2 - (⟨2, 4, 8, 1⟩ : Point (ZMod 13)).x ^ 2 =
        1 + paramsZ.edwards_d * (⟨2, 4, 8, 1⟩ : Point (ZMod 13)).x ^ 2 *
          (⟨2, 4, 8, 1⟩ : Point (ZMod 13)).y ^ 2 ∧
      ((⟨2, 4, 8, 1⟩ : Point (ZMod 13)).y ≠ 0 →
        isOddZ (⟨2, 4, 8, 1⟩ : Point (ZMod 13)).y = b) :=
  c8_rand_amended sqrtZ isOddZ paramsZ [((2 : ZMod 13), false)] ⟨2, 4, 8, 1⟩
    (by decide) (by decide)
    (by
      have h6 : ((1 : ZMod 13) - 2 * 2 * paramsZ.edwards_d)⁻¹ = 11 := by
        have h6e : ((1 : ZMod 13) - 2 * 2 * paramsZ.edwards_d) = 6 := by decide
        rw [h6e]
        exact inv_eq_of_mul_eq_one_right (by decide)
      have hsq : sqrtZ (((1 : ZMod 13) + 2 * 2) *
          ((1 : ZMod 13) - 2 * 2 * paramsZ.edwards_d)⁻¹) = some 4 := by
        rw [h6]
        decide
      have hstep : Point.randStep sqrtZ isOddZ paramsZ 2 false =
          some ⟨2, 4, 8, 1⟩ := by
        rw [Point.randStep_eval sqrtZ isOddZ paramsZ 2 false 4 (by decide) hsq]
        decide
      simp only [Point.rand, hstep])

/-- Witness for C9 on a point with nonzero Z. -/
theorem c9_witness :
    (Point.zero : Point (ZMod 13)) = ⟨0, 1, 0, 1⟩ ∧
    (pW.add Point.zero paramsZ).beq pW = true ∧
    (Point.zero.add pW paramsZ).beq pW = true :=
  c9_zero_identity paramsZ pW (by decide)

/-- Witness for C10 with the all-zero 4-bit scalar. -/
theorem c10_witness :
    Point.zero.add Point.zero paramsZ = (⟨0, 1, 0, 1⟩ : Point (ZMod 13)) ∧
    pW.mul paramsZ 4 0 = (⟨0, 1, 0, 1⟩ : Point (ZMod 13)) :=
  c10_mul_zero_bits paramsZ pW 4 0 (by decide)
